import Mathlib

set_option synthInstance.maxSize 1000

/-!
# Verification of the ezmsg-xdf chunked multi-stream iterator

Shallow embedding of `src/ezmsg/xdf/iter.py`.  Timestamps and data values
(float64 in the source) are modelled as rationals `ℚ`; numpy arrays are
modelled as Lean lists; a stream's 2-D data array is a list of sample rows;
numpy boolean-mask indexing is `applyMask`.  Python exceptions raised during
construction (`KeyError` from the misspelled `"timeseries"` key on line 117,
`ValueError` from `list.index` on line 136, `OverflowError` from
`int(np.ceil(-inf))` when the file has no samples and `rezero` is off) are
modelled with `Except`; `StopIteration` from `__next__` likewise.
-/

/-- One parsed stream record as returned by `pyxdf.load_xdf`: parallel
`time_series` (list of sample rows) and `time_stamps` vectors plus the
header metadata the iterator reads. -/
structure RawStream where
  name : String
  stype : String
  channel_count : Nat
  nominal_srate : ℚ
  time_series : List (List ℚ)
  time_stamps : List ℚ
deriving DecidableEq

/-- Constructor configuration of `XDFIterator.__init__`.  `select` models the
optional `set[str]` as a list of distinct names in iteration order. -/
structure Config where
  select : Option (List String)
  chunk_dur : ℚ
  start_time : Option ℚ
  stop_time : Option ℚ
  rezero : Bool
deriving DecidableEq

/-- Python exceptions that `_scan_file` can raise. -/
inductive XdfError where
  /-- `strm["timeseries"]` on line 117: the dict key is misspelled
  (`time_series` is the real key), so any trim that drops a sample raises. -/
  | keyError
  /-- `stream_names.index(_)` on line 136 with a `select` name absent from
  the file. -/
  | valueError
  /-- `int(np.ceil(-inf))` on line 131 when every stream is empty and
  `rezero` is disabled (`xdf_dur -= inf`). -/
  | overflowError
deriving DecidableEq

/-- Termination signals of the `__next__` methods. -/
inductive IterStop where
  /-- `raise StopIteration` when `self._chunk_ix >= self.n_chunks`. -/
  | stopIteration
  /-- `XDFAxisArrayIterator.__next__` reads the local `result` which is
  unbound when the selected name is missing from the chunk dict. -/
  | nameError
deriving DecidableEq

/-- Digested per-stream metadata (`new_meta` on lines 87-92). -/
structure Meta where
  name : String
  stype : String
  channel_count : Nat
  nominal_srate : ℚ
deriving DecidableEq

/-- State of an `XDFIterator` after `_scan_file` has run. -/
structure IterState where
  streams : List RawStream
  metadata : List (String × Meta)
  n_chunks : Int
  chunk_dur : ℚ
  chunk_ix : Nat
  last_time : ℚ
deriving DecidableEq

deriving instance DecidableEq for Except

/-- numpy boolean-mask indexing `arr[mask]`: keep the entries whose mask
bit is true (mask and array walked in parallel). -/
def applyMask {α : Type} : List Bool → List α → List α
  | b :: bs, x :: xs => if b then x :: applyMask bs xs else applyMask bs xs
  | _, _ => []

/-- The `pyxdf.load_xdf` call on lines 69-74: when `select` is given and
`rezero` is disabled the loader is asked to return only the streams whose
name is in `select`; otherwise the whole file is loaded. -/
def loadStreams (file : List RawStream) (cfg : Config) : List RawStream :=
  match cfg.select, cfg.rezero with
  | some sel, false => file.filter (fun s => sel.contains s.name)
  | _, _ => file

/-- Lines 86-93: digest one stream's header metadata. -/
def metaOf (s : RawStream) : Meta :=
  { name := s.name, stype := s.stype, channel_count := s.channel_count,
    nominal_srate := s.nominal_srate }

/-- Lines 78, 96-99: `xdf_t0`, the running minimum of the loaded streams'
first timestamps, starting from `inf` (`none` when every stream is empty;
zero-sample streams contribute nothing). -/
def xdfT0 (streams : List RawStream) : Option ℚ :=
  (streams.filterMap (fun s => s.time_stamps.head?)).min?

/-- Lines 102-104: subtract `xdf_t0` from every stream's timestamp vector.
(When `xdf_t0` is `inf` every vector is empty, so using `0` is the same.) -/
def rezeroStreams (t0 : ℚ) (streams : List RawStream) : List RawStream :=
  streams.map (fun s =>
    { s with time_stamps := s.time_stamps.map (fun t => t - t0) })

/-- The boolean keep-mask entry of lines 110-114 for one timestamp. -/
def keepPred (tr0 tr1 : Option ℚ) (t : ℚ) : Bool :=
  (match tr0 with | none => true | some a => decide (a ≤ t)) &&
  (match tr1 with | none => true | some b => decide (t ≤ b))

/-- Lines 107-117: trim one stream to the configured time bounds.  When the
mask would drop a sample the source evaluates `strm["timeseries"]`, a key
that does not exist (`time_series` is the real key), raising `KeyError`;
when the mask keeps everything the stream is left untouched. -/
def trimStream (tr0 tr1 : Option ℚ) (s : RawStream) : Except XdfError RawStream :=
  if s.time_stamps.isEmpty then .ok s
  else
    let b_keep := s.time_stamps.map (keepPred tr0 tr1)
    if b_keep.all (fun b => b) then .ok s
    else .error XdfError.keyError

/-- The trimming loop over `self._streams`. -/
def trimAll (tr0 tr1 : Option ℚ) : List RawStream → Except XdfError (List RawStream)
  | [] => .ok []
  | s :: rest =>
    match trimStream tr0 tr1 s with
    | .error e => .error e
    | .ok s2 =>
      match trimAll tr0 tr1 rest with
      | .error e => .error e
      | .ok rest2 => .ok (s2 :: rest2)

/-- Lines 119-124: `xdf_dur`, the running maximum of last timestamps,
starting from `0`. -/
def xdfDurOf (streams : List RawStream) : ℚ :=
  streams.foldl (fun acc s =>
    match s.time_stamps.getLast? with
    | some t => max acc t
    | none => acc) 0

/-- Line 136: `[self._streams[stream_names.index(_)] for _ in self._select]`.
`list.index` finds the first stream with the requested name and raises
`ValueError` when there is none. -/
def selectFind (streams : List RawStream) : List String → Except XdfError (List RawStream)
  | [] => .ok []
  | nm :: rest =>
    match streams.find? (fun s => s.name = nm) with
    | none => .error XdfError.valueError
    | some s =>
      match selectFind streams rest with
      | .error e => .error e
      | .ok rs => .ok (s :: rs)

/-- Lines 133-137: drop streams that were not selected, and restrict the
metadata map to the selected names. -/
def dropUnselected (sel : List String) (streams : List RawStream)
    (metadata : List (String × Meta)) :
    Except XdfError (List RawStream × List (String × Meta)) :=
  match selectFind streams sel with
  | .error e => .error e
  | .ok ns => .ok (ns, sel.filterMap (fun nm => metadata.find? (fun p => p.1 = nm)))

/-- `XDFIterator._scan_file` (lines 58-142): load, digest metadata, compute
`xdf_t0`, re-zero, trim, recompute the duration, compute `n_chunks`, and
drop unselected streams, in exactly the source's order.  `chunk_dur` is
positive per the interface (`chunk_duration: positive seconds`). -/
def scanFile (file : List RawStream) (cfg : Config) : Except XdfError IterState :=
  let loaded := loadStreams file cfg
  let metadata := loaded.map (fun s => (s.name, metaOf s))
  let t0? := xdfT0 loaded
  let streams1 := if cfg.rezero then rezeroStreams (t0?.getD 0) loaded else loaded
  match trimAll cfg.start_time cfg.stop_time streams1 with
  | .error e => .error e
  | .ok streams2 =>
    let dur0 := xdfDurOf streams2
    match (if cfg.rezero then Except.ok dur0 else
            match t0? with
            | none => Except.error XdfError.overflowError
            | some v => Except.ok (dur0 - v)) with
    | .error e => .error e
    | .ok dur =>
      let nChunks : Int := ⌈dur / cfg.chunk_dur⌉
      match (match cfg.select, cfg.rezero with
             | some sel, true => dropUnselected sel streams2 metadata
             | _, _ => Except.ok (streams2, metadata)) with
      | .error e => .error e
      | .ok fin =>
        .ok { streams := fin.1, metadata := fin.2, n_chunks := nChunks,
              chunk_dur := cfg.chunk_dur, chunk_ix := 0, last_time := 0 }

/-- The per-call output of `XDFIterator.__next__`: the insertion-ordered
dict mapping stream name to the `(out_data, out_tvec)` pair. -/
abbrev ChunkDict := List (String × (List (List ℚ) × List ℚ))

/-- Lines 166-170: slice one stream by the boolean window mask
`(ts >= t_start) & (ts < t_stop)`, applied to both parallel arrays. -/
def sliceOne (t_start t_stop : ℚ) (s : RawStream) : List (List ℚ) × List ℚ :=
  let b_chunk := s.time_stamps.map
    (fun t => decide (t_start ≤ t) && decide (t < t_stop))
  (applyMask b_chunk s.time_series, applyMask b_chunk s.time_stamps)

/-- `XDFIterator.__next__` (lines 156-175): raise `StopIteration` when the
cursor is past the last chunk, otherwise emit one `(data, tvec)` slice per
retained stream for the window `[ix*dur, (ix+1)*dur)`, fold the session's
`last_time`, and advance the cursor. -/
def nextBase (st : IterState) : Except IterStop (IterState × ChunkDict) :=
  if st.n_chunks ≤ (st.chunk_ix : Int) then .error IterStop.stopIteration
  else
    let t_start := (st.chunk_ix : ℚ) * st.chunk_dur
    let t_stop := ((st.chunk_ix : ℚ) + 1) * st.chunk_dur
    let out := st.streams.map (fun s => (s.name, sliceOne t_start t_stop s))
    let lt := st.streams.foldl (fun acc s =>
      match (sliceOne t_start t_stop s).2.getLast? with
      | some t => max acc t
      | none => acc) st.last_time
    .ok ({ st with chunk_ix := st.chunk_ix + 1, last_time := lt }, out)

-- The AxisArray container model: `dims`, the two axes stored under the
-- fixed keys "time" and "ch", and the stream key.
/-- `AxisArray.Axis.TimeAxis(fs=..., offset=...)`. -/
structure TimeAxis where
  fs : ℚ
  offset : ℚ
deriving DecidableEq

/-- `AxisArray.Axis.SpaceAxis(labels=...)`. -/
structure SpaceAxis where
  labels : List String
deriving DecidableEq

/-- The `AxisArray` container as the iterators populate it. -/
structure AxisArray where
  data : List (List ℚ)
  dims : List String
  timeAxis : TimeAxis
  chAxis : SpaceAxis
  key : String
deriving DecidableEq

/-- The `replace(template, data=..., axes={.., "time": replace(.., offset=..)})`
pattern shared by lines 220-230 and 280-292: a fresh container from the
template with only `data` and the time offset overridden (offset is the
slice's first timestamp, falling back to the session's `last_time`). -/
def singleContainer (template : AxisArray) (last_time : ℚ)
    (data : List (List ℚ)) (tvec : List ℚ) : AxisArray :=
  { template with
    data := data
    timeAxis := { template.timeAxis with offset := tvec.head?.getD last_time } }

/-- Lines 266-278: split a slice into one single-sample container per
original sample (`data[ix:ix+1]`, offset `_t`), in timestamp order. -/
def forceSplit (template : AxisArray) (data : List (List ℚ)) (tvec : List ℚ) :
    List AxisArray :=
  tvec.enum.map (fun it =>
    { template with
      data := (data.drop it.1).take 1
      timeAxis := { template.timeAxis with offset := it.2 } })

/-- State of an `XDFAxisArrayIterator`: the base cursor, the single selected
name, and the immutable per-stream template built at construction. -/
structure AxState where
  base : IterState
  select_name : String
  template : AxisArray
deriving DecidableEq

/-- `XDFAxisArrayIterator.__next__` (lines 212-231): pull the base chunk,
look the selected stream up, and emit one fresh container derived from the
template.  When the name is absent the local `result` is unbound and Python
raises `NameError`. -/
def nextAx (st : AxState) : Except IterStop (AxState × AxisArray) :=
  match nextBase st.base with
  | .error e => .error e
  | .ok (b2, chunk) =>
    match chunk.find? (fun p => p.1 = st.select_name) with
    | some p =>
      .ok ({ st with base := b2 },
           singleContainer st.template b2.last_time p.2.1 p.2.2)
    | none => .error IterStop.nameError

/-- State of an `XDFMultiAxArrIterator`: the base cursor, the
`force_single_sample` name set, and the per-stream templates. -/
structure MultiState where
  base : IterState
  force_single_sample : List String
  templates : List (String × AxisArray)
deriving DecidableEq

/-- The loop body of `XDFMultiAxArrIterator.__next__` (lines 262-292) for
one templated stream: skipped when the stream is absent from the chunk dict
or its slice is empty; a tuple of single-sample containers for
`force_single_sample` names; a 1-tuple otherwise. -/
def multiStep (force : List String) (last_time : ℚ) (chunk : ChunkDict)
    (kt : String × AxisArray) : Option (String × List AxisArray) :=
  match chunk.find? (fun p => p.1 = kt.1) with
  | some p =>
    if 0 < p.2.2.length then
      if force.contains kt.1 then
        some (kt.1, forceSplit kt.2 p.2.1 p.2.2)
      else
        some (kt.1, [singleContainer kt.2 last_time p.2.1 p.2.2])
    else none
  | none => none

/-- `XDFMultiAxArrIterator.__next__` (lines 258-293): pull the base chunk
and map every templated stream with a non-empty slice to its container(s),
omitting streams with an empty slice. -/
def nextMulti (ms : MultiState) :
    Except IterStop (MultiState × List (String × List AxisArray)) :=
  match nextBase ms.base with
  | .error e => .error e
  | .ok (b2, chunk) =>
    .ok ({ ms with base := b2 },
      ms.templates.filterMap
        (multiStep ms.force_single_sample b2.last_time chunk))

/-! ## Basic facts about mask slicing, lookup and the running min/max -/

theorem applyMask_map_filter {α : Type} (p : α → Bool) (l : List α) :
    applyMask (l.map p) l = l.filter p := by
  induction l with
  | nil => rfl
  | cons a as ih =>
    by_cases h : p a <;> simp [applyMask, List.filter_cons, h, ih]

theorem applyMask_map_zip {α β : Type} (p : α → Bool) :
    ∀ (l : List α) (xs : List β), xs.length = l.length →
      applyMask (l.map p) xs
        = ((l.zip xs).filter (fun pr => p pr.1)).map Prod.snd := by
  intro l
  induction l with
  | nil =>
    intro xs h
    cases xs with
    | nil => rfl
    | cons x xs2 => simp at h
  | cons a as ih =>
    intro xs h
    cases xs with
    | nil => simp at h
    | cons x xs2 =>
      have h2 : xs2.length = as.length := by simpa using h
      by_cases hpa : p a <;>
        simp [applyMask, List.zip_cons_cons, List.filter_cons, hpa, ih xs2 h2]

theorem filter_zip_applyMask {α β : Type} (p : α → Bool) :
    ∀ (l : List α) (xs : List β), xs.length = l.length →
      (l.filter p).zip (applyMask (l.map p) xs)
        = (l.zip xs).filter (fun pr => p pr.1) := by
  intro l
  induction l with
  | nil =>
    intro xs h
    cases xs with
    | nil => rfl
    | cons x xs2 => simp at h
  | cons a as ih =>
    intro xs h
    cases xs with
    | nil => simp at h
    | cons x xs2 =>
      have h2 : xs2.length = as.length := by simpa using h
      by_cases hpa : p a <;>
        simp [applyMask, List.zip_cons_cons, List.filter_cons, hpa, ih xs2 h2]

theorem applyMask_map_of_all_false {α β : Type} (p : α → Bool) :
    ∀ (l : List α) (xs : List β), (∀ a ∈ l, p a = false) →
      applyMask (l.map p) xs = [] := by
  intro l
  induction l with
  | nil => intro xs _; cases xs <;> rfl
  | cons a as ih =>
    intro xs h
    cases xs with
    | nil => rfl
    | cons x xs2 =>
      have ha : p a = false := h a (List.mem_cons_self a as)
      simp only [List.map_cons, applyMask, ha, Bool.false_eq_true, if_false]
      exact ih xs2 (fun b hb => h b (List.mem_cons_of_mem a hb))

theorem find?_name_map {β : Type} (f : RawStream → β) :
    ∀ (streams : List RawStream),
      (streams.map RawStream.name).Nodup →
      ∀ s ∈ streams,
        (streams.map (fun x => (x.name, f x))).find? (fun p => p.1 = s.name)
          = some (s.name, f s) := by
  intro streams
  induction streams with
  | nil => intro _ s hs; simp at hs
  | cons a as ih =>
    intro hnd s hs
    have hnd2 : (as.map RawStream.name).Nodup := (List.nodup_cons.mp hnd).2
    have hna : a.name ∉ as.map RawStream.name := (List.nodup_cons.mp hnd).1
    by_cases h : a.name = s.name
    · have hsa : s = a := by
        rcases List.mem_cons.mp hs with h1 | h1
        · exact h1
        · exact absurd (h ▸ List.mem_map_of_mem RawStream.name h1) hna
      subst hsa
      simp [List.find?_cons, h]
    · have hsmem : s ∈ as := by
        rcases List.mem_cons.mp hs with h1 | h1
        · exact absurd (h1 ▸ rfl) h
        · exact h1
      simpa [List.find?_cons, h] using ih hnd2 s hsmem

theorem foldl_min_le_init : ∀ (l : List ℚ) (a : ℚ), l.foldl min a ≤ a := by
  intro l
  induction l with
  | nil => intro a; exact le_refl a
  | cons b bs ih =>
    intro a
    exact le_trans (ih (min a b)) (min_le_left a b)

theorem foldl_min_le_mem :
    ∀ (l : List ℚ) (a b : ℚ), b ∈ l → l.foldl min a ≤ b := by
  intro l
  induction l with
  | nil => intro a b hb; simp at hb
  | cons c cs ih =>
    intro a b hb
    rcases List.mem_cons.mp hb with h | h
    · subst h
      exact le_trans (foldl_min_le_init cs (min a b)) (min_le_right a b)
    · exact ih (min a c) b h

theorem min?_le {l : List ℚ} {v a : ℚ} (h : l.min? = some v) (ha : a ∈ l) :
    v ≤ a := by
  cases l with
  | nil => simp at ha
  | cons c cs =>
    have hv : cs.foldl min c = v := by simpa [List.min?] using h
    rcases List.mem_cons.mp ha with h1 | h1
    · exact hv ▸ h1 ▸ foldl_min_le_init cs c
    · exact hv ▸ foldl_min_le_mem cs c a h1

/-- The loop step of `xdf_dur` (lines 121-124). -/
def durStep (acc : ℚ) (s : RawStream) : ℚ :=
  match s.time_stamps.getLast? with
  | some t => max acc t
  | none => acc

theorem xdfDurOf_eq_foldl (streams : List RawStream) :
    xdfDurOf streams = streams.foldl durStep 0 := rfl

theorem le_foldl_durStep :
    ∀ (l : List RawStream) (a : ℚ), a ≤ l.foldl durStep a := by
  intro l
  induction l with
  | nil => intro a; exact le_refl a
  | cons s rest ih =>
    intro a
    refine le_trans ?_ (ih (durStep a s))
    unfold durStep
    cases s.time_stamps.getLast? with
    | none => exact le_refl a
    | some t => exact le_max_left a t

theorem foldl_durStep_mem_le :
    ∀ (l : List RawStream) (a : ℚ) (s : RawStream), s ∈ l →
      ∀ t, s.time_stamps.getLast? = some t → t ≤ l.foldl durStep a := by
  intro l
  induction l with
  | nil => intro a s hs; simp at hs
  | cons c cs ih =>
    intro a s hs t ht
    rcases List.mem_cons.mp hs with h | h
    · subst h
      refine le_trans ?_ (le_foldl_durStep cs (durStep a s))
      unfold durStep
      rw [ht]
      exact le_max_right a t
    · exact ih (durStep a c) s h t ht

theorem xdfDurOf_nonneg (streams : List RawStream) : 0 ≤ xdfDurOf streams :=
  le_foldl_durStep streams 0

theorem xdfDurOf_map_eq (g : RawStream → RawStream) :
    ∀ (l : List RawStream), (∀ s ∈ l, (g s).time_stamps = s.time_stamps) →
      xdfDurOf (l.map g) = xdfDurOf l := by
  have aux : ∀ (l : List RawStream) (a : ℚ),
      (∀ s ∈ l, (g s).time_stamps = s.time_stamps) →
      (l.map g).foldl durStep a = l.foldl durStep a := by
    intro l
    induction l with
    | nil => intro a _; rfl
    | cons c cs ih =>
      intro a h
      have hc : durStep a (g c) = durStep a c := by
        unfold durStep
        rw [h c (List.mem_cons_self c cs)]
      simp only [List.map_cons, List.foldl_cons, hc]
      exact ih (durStep a c) (fun s hs => h s (List.mem_cons_of_mem c hs))
  intro l h
  exact aux l 0 h

theorem sorted_head?_le {l : List ℚ} (hs : l.Sorted (· ≤ ·)) {h0 : ℚ}
    (hh : l.head? = some h0) : ∀ t ∈ l, h0 ≤ t := by
  cases l with
  | nil => simp at hh
  | cons a as =>
    have ha : a = h0 := by simpa using hh
    subst ha
    intro t ht
    rcases List.mem_cons.mp ht with h | h
    · exact h ▸ le_refl t
    · exact (List.sorted_cons.mp hs).1 t h

theorem sorted_le_getLast? :
    ∀ (l : List ℚ), l.Sorted (· ≤ ·) → ∀ {lst : ℚ}, l.getLast? = some lst →
      ∀ t ∈ l, t ≤ lst := by
  intro l
  induction l with
  | nil => intro _ lst h; simp at h
  | cons a as ih =>
    intro hs lst hl t ht
    cases as with
    | nil =>
      have h1 : a = lst := by simpa using hl
      have h2 : t = a := by simpa using ht
      exact le_of_eq (h2.trans h1)
    | cons b bs =>
      have hl2 : (b :: bs).getLast? = some lst := by
        simpa [List.getLast?] using hl
      have hs2 : (b :: bs).Sorted (· ≤ ·) := (List.sorted_cons.mp hs).2
      rcases List.mem_cons.mp ht with h | h
      · subst h
        have hbmem : lst ∈ b :: bs := List.mem_of_mem_getLast? hl2
        exact (List.sorted_cons.mp hs).1 lst hbmem
      · exact ih hs2 hl2 t h

/-! ## Inversion facts about `_scan_file` -/

theorem trimStream_ok {tr0 tr1 : Option ℚ} {s s2 : RawStream}
    (h : trimStream tr0 tr1 s = .ok s2) :
    s2 = s ∧ s.time_stamps.filter (keepPred tr0 tr1) = s.time_stamps := by
  unfold trimStream at h
  by_cases he : s.time_stamps.isEmpty
  · rw [if_pos he] at h
    cases h
    refine ⟨rfl, ?_⟩
    rw [List.isEmpty_iff.mp he]
    rfl
  · rw [if_neg he] at h
    by_cases ha : (s.time_stamps.map (keepPred tr0 tr1)).all (fun b => b)
    · rw [if_pos ha] at h
      cases h
      refine ⟨rfl, List.filter_eq_self.mpr ?_⟩
      intro a hmem
      have := List.all_eq_true.mp ha (keepPred tr0 tr1 a)
        (List.mem_map_of_mem (keepPred tr0 tr1) hmem)
      simpa using this
    · rw [if_neg ha] at h
      cases h

theorem trimAll_ok {tr0 tr1 : Option ℚ} :
    ∀ {l l2 : List RawStream}, trimAll tr0 tr1 l = .ok l2 →
      l2 = l ∧ ∀ s ∈ l, s.time_stamps.filter (keepPred tr0 tr1) = s.time_stamps := by
  intro l
  induction l with
  | nil =>
    intro l2 h
    cases h
    exact ⟨rfl, by intro s hs; simp at hs⟩
  | cons a as ih =>
    intro l2 h
    unfold trimAll at h
    cases ht : trimStream tr0 tr1 a with
    | error e => rw [ht] at h; cases h
    | ok a2 =>
      rw [ht] at h
      cases hr : trimAll tr0 tr1 as with
      | error e => rw [hr] at h; cases h
      | ok as2 =>
        rw [hr] at h
        cases h
        obtain ⟨he1, he2⟩ := trimStream_ok ht
        obtain ⟨hr1, hr2⟩ := ih hr
        subst he1
        subst hr1
        refine ⟨rfl, ?_⟩
        intro s hs
        rcases List.mem_cons.mp hs with h | h
        · exact h ▸ he2
        · exact hr2 s h

theorem selectFind_ok_mem {streams : List RawStream} :
    ∀ {sel : List String} {ns : List RawStream},
      selectFind streams sel = .ok ns → ∀ s ∈ ns, s ∈ streams := by
  intro sel
  induction sel with
  | nil =>
    intro ns h
    cases h
    intro s hs
    simp at hs
  | cons nm rest ih =>
    intro ns h
    unfold selectFind at h
    cases hf : streams.find? (fun s => s.name = nm) with
    | none => rw [hf] at h; cases h
    | some s0 =>
      rw [hf] at h
      cases hr : selectFind streams rest with
      | error e => rw [hr] at h; cases h
      | ok rs =>
        rw [hr] at h
        cases h
        intro s hs
        rcases List.mem_cons.mp hs with h | h
        · exact h ▸ List.mem_of_find?_eq_some hf
        · exact ih hr s h

theorem loadStreams_rezero {file : List RawStream} {cfg : Config}
    (hr : cfg.rezero = true) : loadStreams file cfg = file := by
  unfold loadStreams
  cases cfg.select <;> simp [hr]

/-- Everything `scanFile` determines about a successful scan, stated over
the intermediate values of the source's own pipeline. -/
theorem scanFile_inv {file : List RawStream} {cfg : Config} {st : IterState}
    (h : scanFile file cfg = .ok st) :
    ∃ streams2 dur,
      trimAll cfg.start_time cfg.stop_time
          (if cfg.rezero then
            rezeroStreams ((xdfT0 (loadStreams file cfg)).getD 0)
              (loadStreams file cfg)
          else loadStreams file cfg) = .ok streams2 ∧
      (if cfg.rezero then Except.ok (xdfDurOf streams2) else
        match xdfT0 (loadStreams file cfg) with
        | none => Except.error XdfError.overflowError
        | some v => Except.ok (xdfDurOf streams2 - v)) = Except.ok dur ∧
      st.n_chunks = ⌈dur / cfg.chunk_dur⌉ ∧
      st.chunk_dur = cfg.chunk_dur ∧ st.chunk_ix = 0 ∧ st.last_time = 0 ∧
      (∀ s ∈ st.streams, s ∈ streams2) ∧
      (cfg.select = none ∨ cfg.rezero = false → st.streams = streams2) := by
  simp only [scanFile] at h
  cases htr : trimAll cfg.start_time cfg.stop_time
      (if cfg.rezero then
        rezeroStreams ((xdfT0 (loadStreams file cfg)).getD 0)
          (loadStreams file cfg)
      else loadStreams file cfg) with
  | error e => rw [htr] at h; cases h
  | ok streams2 =>
    rw [htr] at h
    simp only [] at h
    refine ⟨streams2, ?_⟩
    cases hdur : (if cfg.rezero then Except.ok (xdfDurOf streams2) else
        match xdfT0 (loadStreams file cfg) with
        | none => Except.error XdfError.overflowError
        | some v => Except.ok (xdfDurOf streams2 - v)) with
    | error e => rw [hdur] at h; cases h
    | ok dur =>
      rw [hdur] at h
      simp only [] at h
      refine ⟨dur, rfl, rfl, ?_⟩
      cases hsel : cfg.select with
      | none =>
        rw [hsel] at h
        simp only [] at h
        cases h
        exact ⟨rfl, rfl, rfl, rfl, fun s hs => hs, fun _ => rfl⟩
      | some sel =>
        rw [hsel] at h
        cases hrz : cfg.rezero with
        | false =>
          rw [hrz] at h
          simp only [] at h
          cases h
          exact ⟨rfl, rfl, rfl, rfl, fun s hs => hs, fun _ => rfl⟩
        | true =>
          rw [hrz] at h
          simp only [dropUnselected] at h
          cases hsf : selectFind streams2 sel with
          | error e => rw [hsf] at h; simp only [] at h; cases h
          | ok ns =>
            rw [hsf] at h
            simp only [] at h
            cases h
            refine ⟨rfl, rfl, rfl, rfl, ?_, ?_⟩
            · exact fun s hs => selectFind_ok_mem hsf s hs
            · intro hc
              rcases hc with hc | hc
              · exact Option.noConfusion hc
              · exact Bool.noConfusion hc

/-- Specialization of `scanFile_inv` to `rezero=True`: a successful scan
leaves every retained stream a member of the re-zeroed full file, and
`n_chunks` is the ceiling of the re-zeroed duration over `chunk_dur`.
(On success the trim step provably kept every sample, see `trimAll_ok`.) -/
theorem scanFile_rezero_inv {file : List RawStream} {cfg : Config} {st : IterState}
    (hr : cfg.rezero = true) (h : scanFile file cfg = .ok st) :
    st.n_chunks =
      ⌈xdfDurOf (rezeroStreams ((xdfT0 file).getD 0) file) / cfg.chunk_dur⌉ ∧
    st.chunk_dur = cfg.chunk_dur ∧ st.chunk_ix = 0 ∧
    (∀ s ∈ st.streams, s ∈ rezeroStreams ((xdfT0 file).getD 0) file) := by
  obtain ⟨streams2, dur, htr, hdur, hn, hcd, hix, _, hmem, _⟩ := scanFile_inv h
  rw [hr, if_pos rfl] at htr hdur
  rw [loadStreams_rezero hr] at htr
  obtain ⟨h2eq, _⟩ := trimAll_ok htr
  subst h2eq
  cases hdur
  exact ⟨hn, hcd, hix, hmem⟩

/-- Modelled from the spec (§4.1 step 4): trimming keeps exactly the samples
inside the configured bounds, reducing the timestamp vector and the data
matrix by the same boolean keep-mask.  (The source's trim step instead
raises `KeyError`; this definition is the spec's intent, used to state the
claims that quantify over "trimmed" streams.) -/
def specTrimStream (tr0 tr1 : Option ℚ) (s : RawStream) : RawStream :=
  { s with
    time_stamps := s.time_stamps.filter (keepPred tr0 tr1)
    time_series := applyMask (s.time_stamps.map (keepPred tr0 tr1)) s.time_series }

/-- The claim's effective duration: maximum last timestamp across the loaded
streams after re-zeroing and trimming, minus the original global `t0` when
re-zeroing is disabled. -/
def specEffectiveDuration (file : List RawStream) (cfg : Config) : ℚ :=
  let loaded := loadStreams file cfg
  let t0? := xdfT0 loaded
  let streams1 := if cfg.rezero then rezeroStreams (t0?.getD 0) loaded else loaded
  let trimmed := streams1.map (specTrimStream cfg.start_time cfg.stop_time)
  if cfg.rezero then xdfDurOf trimmed else xdfDurOf trimmed - t0?.getD 0

/-- **C1**: for every file and configuration with `chunk_dur > 0` on which
construction succeeds, the iterator's `n_chunks` equals
`ceil(effective_duration / chunk_dur)`, where the effective duration is the
maximum last timestamp over all loaded streams after trimming, minus the
original global `t0` when `rezero` is disabled. -/
theorem total_chunks_eq_ceil_effective_duration
    (file : List RawStream) (cfg : Config) (st : IterState)
    (hd : 0 < cfg.chunk_dur) (h : scanFile file cfg = .ok st) :
    st.n_chunks = ⌈specEffectiveDuration file cfg / cfg.chunk_dur⌉ := by
  obtain ⟨streams2, dur, htr, hdur, hn, _, _, _, _, _⟩ := scanFile_inv h
  obtain ⟨h2eq, hfilt⟩ := trimAll_ok htr
  have hmapdur :
      xdfDurOf (streams2.map (specTrimStream cfg.start_time cfg.stop_time))
        = xdfDurOf streams2 := by
    refine xdfDurOf_map_eq _ streams2 ?_
    intro s hs
    show s.time_stamps.filter (keepPred cfg.start_time cfg.stop_time)
        = s.time_stamps
    exact hfilt s (h2eq ▸ hs)
  simp only [specEffectiveDuration]
  by_cases hrz : cfg.rezero = true
  · rw [hrz, if_pos rfl] at hdur h2eq
    simp only [hrz, eq_self_iff_true, if_true]
    rw [← h2eq, hmapdur]
    cases hdur
    exact hn
  · have hrz2 : cfg.rezero = false := by
      cases hb : cfg.rezero
      · rfl
      · exact absurd hb hrz
    rw [hrz2] at hdur h2eq
    simp only [hrz2, Bool.false_eq_true, if_false] at hdur h2eq ⊢
    rw [← h2eq] at hdur ⊢
    cases ht0 : xdfT0 streams2 with
    | none => rw [ht0] at hdur; cases hdur
    | some v =>
      rw [ht0] at hdur
      cases hdur
      rw [hmapdur, hn]
      rfl

-- Concrete inputs for witnesses and failing-input theorems.
/-- A 2-sample EEG-like stream starting at t=0. -/
def exStreamA : RawStream := ⟨"A", "EEG", 1, 100, [[1], [2]], [0, 3/2]⟩

/-- A 3-sample marker-like stream on integer timestamps. -/
def exStreamM : RawStream := ⟨"Marker", "Markers", 1, 0, [[1], [2], [3]], [0, 1, 2]⟩

def c1cfg : Config := ⟨none, 1, none, none, true⟩

def c1st : IterState :=
  ⟨[⟨"A", "EEG", 1, 100, [[1], [2]], [0, 3/2]⟩],
   [("A", ⟨"A", "EEG", 1, 100⟩)], 2, 1, 0, 0⟩

theorem total_chunks_eq_ceil_effective_duration_witness :
    0 < c1cfg.chunk_dur ∧ scanFile [exStreamA] c1cfg = .ok c1st ∧
      c1st.n_chunks = ⌈specEffectiveDuration [exStreamA] c1cfg / c1cfg.chunk_dur⌉ :=
  ⟨by with_unfolding_all decide, by with_unfolding_all decide,
   total_chunks_eq_ceil_effective_duration [exStreamA] c1cfg c1st
     (by with_unfolding_all decide) (by with_unfolding_all decide)⟩

def c3cfg : Config := ⟨none, 1, some (1/2), some (3/2), false⟩

/-- **C3**: the claim says trimming applies the keep-mask to both the
timestamp vector and the data matrix and that construction succeeds; on the
code, any configuration whose bounds actually drop a sample raises
`KeyError` instead, because line 117 reads the misspelled dict key
`"timeseries"` (`time_series` is the real key), so the data matrix is never
trimmed and construction aborts.  Concretely: one stream with timestamps
`[0, 1, 2]`, `start_time=0.5`, `stop_time=1.5`. -/
theorem trim_config_raises_key_error :
    scanFile [exStreamM] c3cfg = .error XdfError.keyError := by
  with_unfolding_all decide

def c6cfg : Config := ⟨some ["B"], 1, none, none, true⟩

/-- **C6**: the claim (and spec §4.1/§7) require an explicit NotFound
configuration error for a `select` name absent from the file; the code
instead hits `stream_names.index(name)` on line 136, which raises a bare
`ValueError` deep in the drop loop (and with `rezero=False` the unknown
name is silently delegated to the loader filter).  Concretely: a file with
only stream "A", `select={"B"}`, `rezero=True`. -/
theorem unknown_select_raises_value_error :
    scanFile [exStreamA] c6cfg = .error XdfError.valueError := by
  with_unfolding_all decide

/-! ## The chunk cursor `__next__` -/

theorem nextBase_ok_iff (st : IterState) :
    (∃ r, nextBase st = .ok r) ↔ (st.chunk_ix : Int) < st.n_chunks := by
  unfold nextBase
  by_cases h : st.n_chunks ≤ (st.chunk_ix : Int)
  · rw [if_pos h]
    constructor
    · rintro ⟨r, hr⟩; cases hr
    · intro hlt; exact absurd h (not_le.mpr hlt)
  · rw [if_neg h]
    constructor
    · intro _; exact lt_of_not_le h
    · intro _; exact ⟨_, rfl⟩

theorem nextBase_ok_elim {st st2 : IterState} {out : ChunkDict}
    (h : nextBase st = .ok (st2, out)) :
    out = st.streams.map (fun s => (s.name,
      sliceOne ((st.chunk_ix : ℚ) * st.chunk_dur)
        (((st.chunk_ix : ℚ) + 1) * st.chunk_dur) s)) ∧
    st2.streams = st.streams ∧ st2.chunk_dur = st.chunk_dur ∧
    st2.n_chunks = st.n_chunks ∧ st2.chunk_ix = st.chunk_ix + 1 ∧
    ¬ st.n_chunks ≤ (st.chunk_ix : Int) := by
  unfold nextBase at h
  by_cases hc : st.n_chunks ≤ (st.chunk_ix : Int)
  · rw [if_pos hc] at h; cases h
  · rw [if_neg hc] at h
    simp only [] at h
    cases h
    exact ⟨rfl, rfl, rfl, rfl, rfl, hc⟩

theorem sliceOne_tvec (a b : ℚ) (s : RawStream) :
    (sliceOne a b s).2
      = s.time_stamps.filter (fun t => decide (a ≤ t) && decide (t < b)) :=
  applyMask_map_filter _ _

theorem sliceOne_data (a b : ℚ) (s : RawStream)
    (hlen : s.time_series.length = s.time_stamps.length) :
    (sliceOne a b s).1
      = ((s.time_stamps.zip s.time_series).filter
          (fun pr => decide (a ≤ pr.1) && decide (pr.1 < b))).map Prod.snd :=
  applyMask_map_zip _ _ _ hlen

theorem sliceOne_pairs (a b : ℚ) (s : RawStream)
    (hlen : s.time_series.length = s.time_stamps.length) :
    (sliceOne a b s).2.zip (sliceOne a b s).1
      = (s.time_stamps.zip s.time_series).filter
          (fun pr => decide (a ≤ pr.1) && decide (pr.1 < b)) := by
  rw [sliceOne_tvec]
  exact filter_zip_applyMask (fun t => decide (a ≤ t) && decide (t < b))
    s.time_stamps s.time_series hlen

/-- **C2**: on every non-terminal call at chunk index `k`, the slice
returned for each live stream consists of exactly the samples whose
timestamp `t` satisfies `k*chunk_dur ≤ t < (k+1)*chunk_dur` (half-open
window), with the data rows and the timestamps selected by the same mask
(stated by filtering the zipped timestamp/row pairs with one predicate). -/
theorem chunk_window_slice_spec (st st2 : IterState) (out : ChunkDict)
    (h : nextBase st = .ok (st2, out)) (s : RawStream) (hs : s ∈ st.streams)
    (hlen : s.time_series.length = s.time_stamps.length) :
    (s.name,
      (((s.time_stamps.zip s.time_series).filter (fun pr =>
          decide ((st.chunk_ix : ℚ) * st.chunk_dur ≤ pr.1) &&
          decide (pr.1 < ((st.chunk_ix : ℚ) + 1) * st.chunk_dur))).map Prod.snd,
       s.time_stamps.filter (fun t =>
          decide ((st.chunk_ix : ℚ) * st.chunk_dur ≤ t) &&
          decide (t < ((st.chunk_ix : ℚ) + 1) * st.chunk_dur)))) ∈ out := by
  obtain ⟨hout, _⟩ := nextBase_ok_elim h
  rw [hout]
  refine List.mem_map.mpr ⟨s, hs, ?_⟩
  have h1 := sliceOne_data ((st.chunk_ix : ℚ) * st.chunk_dur)
    (((st.chunk_ix : ℚ) + 1) * st.chunk_dur) s hlen
  have h2 := sliceOne_tvec ((st.chunk_ix : ℚ) * st.chunk_dur)
    (((st.chunk_ix : ℚ) + 1) * st.chunk_dur) s
  exact Prod.ext_iff.mpr ⟨rfl, Prod.ext_iff.mpr ⟨h1, h2⟩⟩

def c2st2 : IterState :=
  ⟨[⟨"A", "EEG", 1, 100, [[1], [2]], [0, 3/2]⟩],
   [("A", ⟨"A", "EEG", 1, 100⟩)], 2, 1, 1, 0⟩

def c2out : ChunkDict := [("A", ([[1]], [0]))]

theorem chunk_window_slice_spec_witness :
    nextBase c1st = .ok (c2st2, c2out) ∧
    (exStreamA.name,
      (((exStreamA.time_stamps.zip exStreamA.time_series).filter (fun pr =>
          decide ((c1st.chunk_ix : ℚ) * c1st.chunk_dur ≤ pr.1) &&
          decide (pr.1 < ((c1st.chunk_ix : ℚ) + 1) * c1st.chunk_dur))).map Prod.snd,
       exStreamA.time_stamps.filter (fun t =>
          decide ((c1st.chunk_ix : ℚ) * c1st.chunk_dur ≤ t) &&
          decide (t < ((c1st.chunk_ix : ℚ) + 1) * c1st.chunk_dur)))) ∈ c2out :=
  ⟨by with_unfolding_all decide,
   chunk_window_slice_spec c1st c2st2 c2out (by with_unfolding_all decide)
     exStreamA (by with_unfolding_all decide) (by with_unfolding_all decide)⟩

/-- **C10**: the base cursor's output has exactly one entry per retained
stream, in stream order, and a stream whose window slice is empty still
appears, paired with empty data/timestamp arrays; the omission of
zero-sample streams happens only in the derived multi-stream iterator,
whose output never carries a key whose slice this window was empty. -/
theorem base_next_includes_all_streams (st st2 : IterState) (out : ChunkDict)
    (h : nextBase st = .ok (st2, out)) :
    out.map Prod.fst = st.streams.map RawStream.name ∧
    (∀ s ∈ st.streams,
      s.time_stamps.filter (fun t =>
        decide ((st.chunk_ix : ℚ) * st.chunk_dur ≤ t) &&
        decide (t < ((st.chunk_ix : ℚ) + 1) * st.chunk_dur)) = [] →
      (s.name, (([] : List (List ℚ)), ([] : List ℚ))) ∈ out) ∧
    (∀ (ms ms2 : MultiState) (mout : List (String × List AxisArray)),
      nextMulti ms = .ok (ms2, mout) →
      ∀ b2 chunk, nextBase ms.base = .ok (b2, chunk) →
      ∀ k data, chunk.find? (fun p => p.1 = k) = some (k, (data, ([] : List ℚ))) →
      ∀ e ∈ mout, e.1 ≠ k) := by
  obtain ⟨hout, _⟩ := nextBase_ok_elim h
  refine ⟨?_, ?_, ?_⟩
  · rw [hout, List.map_map]
    rfl
  · intro s hs hempty
    rw [hout]
    refine List.mem_map.mpr ⟨s, hs, ?_⟩
    have htv := (sliceOne_tvec ((st.chunk_ix : ℚ) * st.chunk_dur)
      (((st.chunk_ix : ℚ) + 1) * st.chunk_dur) s).trans hempty
    have hfalse : ∀ t ∈ s.time_stamps,
        (fun t => decide ((st.chunk_ix : ℚ) * st.chunk_dur ≤ t) &&
          decide (t < ((st.chunk_ix : ℚ) + 1) * st.chunk_dur)) t = false := by
      intro t ht
      have := List.filter_eq_nil_iff.mp hempty t ht
      simpa using this
    have hdata : (sliceOne ((st.chunk_ix : ℚ) * st.chunk_dur)
        (((st.chunk_ix : ℚ) + 1) * st.chunk_dur) s).1 = [] :=
      applyMask_map_of_all_false _ _ _ hfalse
    exact Prod.ext_iff.mpr ⟨rfl, Prod.ext_iff.mpr ⟨hdata, htv⟩⟩
  · intro ms ms2 mout hm b2 chunk hb k data hfind e he hek
    unfold nextMulti at hm
    rw [hb] at hm
    simp only [] at hm
    cases hm
    obtain ⟨kt, hkt, hstep⟩ := List.mem_filterMap.mp he
    unfold multiStep at hstep
    cases hf : chunk.find? (fun p => p.1 = kt.1) with
    | none =>
      rw [hf] at hstep
      exact Option.noConfusion hstep
    | some p =>
      rw [hf] at hstep
      have hstep2 : (if 0 < p.2.2.length then
          (if ms.force_single_sample.contains kt.1 then
            some (kt.1, forceSplit kt.2 p.2.1 p.2.2)
          else some (kt.1, [singleContainer kt.2 b2.last_time p.2.1 p.2.2]))
        else none) = some e := hstep
      by_cases hl : 0 < p.2.2.length
      · rw [if_pos hl] at hstep2
        have hkeq : kt.1 = k := by
          by_cases hfs : ms.force_single_sample.contains kt.1
          · rw [if_pos hfs] at hstep2
            cases hstep2
            exact hek
          · rw [if_neg hfs] at hstep2
            cases hstep2
            exact hek
        rw [hkeq] at hf
        have hp : p = (k, (data, ([] : List ℚ))) :=
          Option.some.inj (hf.symm.trans hfind)
        rw [hp] at hl
        exact absurd hl (by simp)
      · rw [if_neg hl] at hstep2
        exact Option.noConfusion hstep2

def c10st : IterState :=
  ⟨[⟨"A", "EEG", 1, 100, [[1], [2]], [0, 3/2]⟩,
    ⟨"B", "Markers", 1, 0, [], []⟩],
   [], 2, 1, 0, 0⟩

def c10st2 : IterState :=
  ⟨[⟨"A", "EEG", 1, 100, [[1], [2]], [0, 3/2]⟩,
    ⟨"B", "Markers", 1, 0, [], []⟩],
   [], 2, 1, 1, 0⟩

def c10out : ChunkDict := [("A", ([[1]], [0])), ("B", ([], []))]

theorem base_next_includes_all_streams_witness :
    nextBase c10st = .ok (c10st2, c10out) ∧
    c10out.map Prod.fst = c10st.streams.map RawStream.name :=
  ⟨by with_unfolding_all decide,
   (base_next_includes_all_streams c10st c10st2 c10out
     (by with_unfolding_all decide)).1⟩

/-! ## Adapter and combiner claims -/

/-- **C9**: every container the per-stream adapter emits keeps the
template's dims, channel-axis labels, sample-rate and key, replacing only
the data and the time-axis offset (the slice's first timestamp, or the
session's `last_time` when the slice is empty); and neither adapter ever
replaces its stored template: `nextAx` returns a state with the same
`template`, and `nextMulti` returns a state with the same `templates`. -/
theorem template_fields_preserved (st : AxState) (b2 : IterState)
    (chunk : ChunkDict) (hb : nextBase st.base = .ok (b2, chunk))
    (data : List (List ℚ)) (tvec : List ℚ)
    (hc : chunk.find? (fun p => p.1 = st.select_name)
      = some (st.select_name, (data, tvec))) :
    (∃ st2 res, nextAx st = .ok (st2, res) ∧
      res.dims = st.template.dims ∧ res.key = st.template.key ∧
      res.chAxis = st.template.chAxis ∧
      res.timeAxis.fs = st.template.timeAxis.fs ∧
      res.data = data ∧
      res.timeAxis.offset = tvec.head?.getD b2.last_time ∧
      st2.template = st.template) ∧
    (∀ (ms ms2 : MultiState) (mout : List (String × List AxisArray)),
      nextMulti ms = .ok (ms2, mout) → ms2.templates = ms.templates) := by
  constructor
  · have hval : nextAx st = .ok ({ st with base := b2 },
        singleContainer st.template b2.last_time data tvec) := by
      unfold nextAx
      rw [hb]
      show (match chunk.find? (fun p => p.1 = st.select_name) with
        | some p => Except.ok ({ st with base := b2 },
            singleContainer st.template b2.last_time p.2.1 p.2.2)
        | none => Except.error IterStop.nameError) = _
      rw [hc]
    exact ⟨{ st with base := b2 },
      singleContainer st.template b2.last_time data tvec,
      hval, rfl, rfl, rfl, rfl, rfl, rfl, rfl⟩
  · intro ms ms2 mout hm
    unfold nextMulti at hm
    cases hnb : nextBase ms.base with
    | error e =>
      rw [hnb] at hm
      exact Except.noConfusion hm
    | ok pr =>
      obtain ⟨b2x, chunkx⟩ := pr
      rw [hnb] at hm
      simp only [] at hm
      cases hm
      rfl

def c9tmpl : AxisArray := ⟨[], ["time", "ch"], ⟨100, 0⟩, ⟨["1"]⟩, "A"⟩

def c9st : AxState := ⟨c1st, "A", c9tmpl⟩

theorem template_fields_preserved_witness :
    nextBase c9st.base = .ok (c2st2, c2out) ∧
    (∃ st2 res, nextAx c9st = .ok (st2, res) ∧
      res.dims = c9st.template.dims ∧ res.key = c9st.template.key ∧
      res.chAxis = c9st.template.chAxis ∧
      res.timeAxis.fs = c9st.template.timeAxis.fs ∧
      res.data = [[1]] ∧
      res.timeAxis.offset = ([(0 : ℚ)].head?.getD c2st2.last_time) ∧
      st2.template = c9st.template) :=
  ⟨by with_unfolding_all decide,
   (template_fields_preserved c9st c2st2 c2out (by with_unfolding_all decide)
     [[1]] [0] (by with_unfolding_all decide)).1⟩

/-- **C7**: `next()` signals the terminal `StopIteration` exactly when the
cursor index has reached `n_chunks`; and on a non-terminal call in whose
window every retained stream has zero samples, the multi-stream iterator
returns an empty mapping — an ordinary `ok` value, distinguishable from
the terminal signal. -/
theorem next_terminal_iff_and_empty_window (ms : MultiState) :
    ((∃ r, nextMulti ms = .ok r) ↔ (ms.base.chunk_ix : Int) < ms.base.n_chunks) ∧
    ((ms.base.chunk_ix : Int) < ms.base.n_chunks →
      (∀ s ∈ ms.base.streams, s.time_stamps.filter (fun t =>
        decide ((ms.base.chunk_ix : ℚ) * ms.base.chunk_dur ≤ t) &&
        decide (t < ((ms.base.chunk_ix : ℚ) + 1) * ms.base.chunk_dur)) = []) →
      ∃ ms2, nextMulti ms = .ok (ms2, [])) := by
  constructor
  · constructor
    · rintro ⟨r, hr⟩
      unfold nextMulti at hr
      cases hnb : nextBase ms.base with
      | error e =>
        rw [hnb] at hr
        exact Except.noConfusion hr
      | ok pr => exact (nextBase_ok_iff ms.base).mp ⟨pr, hnb⟩
    · intro hlt
      obtain ⟨⟨b2, chunk⟩, hnb⟩ := (nextBase_ok_iff ms.base).mpr hlt
      refine ⟨({ ms with base := b2 }, ms.templates.filterMap
        (multiStep ms.force_single_sample b2.last_time chunk)), ?_⟩
      unfold nextMulti
      rw [hnb]
  · intro hlt hempty
    obtain ⟨⟨b2, chunk⟩, hnb⟩ := (nextBase_ok_iff ms.base).mpr hlt
    obtain ⟨hout, _⟩ := nextBase_ok_elim hnb
    refine ⟨{ ms with base := b2 }, ?_⟩
    have hnil : ms.templates.filterMap
        (multiStep ms.force_single_sample b2.last_time chunk) = [] := by
      refine List.filterMap_eq_nil_iff.mpr ?_
      intro kt _
      unfold multiStep
      cases hf : chunk.find? (fun p => p.1 = kt.1) with
      | none => rfl
      | some p =>
        have hpmem : p ∈ chunk := List.mem_of_find?_eq_some hf
        rw [hout] at hpmem
        obtain ⟨s, hsmem, hseq⟩ := List.mem_map.mp hpmem
        have htv : p.2.2 = [] := by
          rw [← hseq]
          rw [sliceOne_tvec]
          exact hempty s hsmem
        simp only [htv, List.length_nil, lt_self_iff_false, if_false]
    calc nextMulti ms
        = .ok ({ ms with base := b2 }, ms.templates.filterMap
            (multiStep ms.force_single_sample b2.last_time chunk)) := by
          unfold nextMulti
          rw [hnb]
      _ = .ok ({ ms with base := b2 }, []) := by rw [hnil]

def c7base : IterState := ⟨[⟨"A", "EEG", 1, 100, [[1]], [5]⟩], [], 1, 1, 0, 0⟩

def c7ms : MultiState := ⟨c7base, [], [("A", c9tmpl)]⟩

theorem next_terminal_iff_and_empty_window_witness :
    ((c7ms.base.chunk_ix : Int) < c7ms.base.n_chunks) ∧
    ∃ ms2, nextMulti c7ms = .ok (ms2, []) :=
  ⟨by with_unfolding_all decide,
   (next_terminal_iff_and_empty_window c7ms).2
     (by with_unfolding_all decide) (by with_unfolding_all decide)⟩

/-- **C5**: with `rezero` enabled, every stream retained after a successful
construction carries the timestamps of a stream of the full file shifted by
the single global minimum first-timestamp `xdfT0 file` — computed over all
streams of the full file (zero-sample streams contribute nothing,
unselected streams are included because selection happens only after
re-zeroing), subtracted exactly once, with the data rows untouched. -/
theorem rezero_subtracts_global_t0 (file : List RawStream) (cfg : Config)
    (st : IterState) (hr : cfg.rezero = true) (h : scanFile file cfg = .ok st) :
    ∀ s ∈ st.streams, ∃ s0, s0 ∈ file ∧ s0.name = s.name ∧
      s0.time_series = s.time_series ∧
      s.time_stamps = s0.time_stamps.map (fun t => t - (xdfT0 file).getD 0) := by
  intro s hs
  obtain ⟨_, _, _, hmem⟩ := scanFile_rezero_inv hr h
  have hs2 := hmem s hs
  obtain ⟨s0, hs0, heq⟩ := List.mem_map.mp hs2
  exact ⟨s0, hs0, by rw [← heq], by rw [← heq], by rw [← heq]⟩

def c5fileA : RawStream := ⟨"A", "EEG", 1, 100, [[1], [2]], [1/2, 3/2]⟩

def c5fileB : RawStream := ⟨"B", "Markers", 1, 0, [[7]], [1]⟩

def c5cfg : Config := ⟨some ["B"], 1, none, none, true⟩

def c5st : IterState :=
  ⟨[⟨"B", "Markers", 1, 0, [[7]], [1/2]⟩],
   [("B", ⟨"B", "Markers", 1, 0⟩)], 1, 1, 0, 0⟩

theorem rezero_subtracts_global_t0_witness :
    scanFile [c5fileA, c5fileB] c5cfg = .ok c5st ∧
    ∃ s0, s0 ∈ [c5fileA, c5fileB] ∧
      s0.name = (⟨"B", "Markers", 1, 0, [[7]], [1/2]⟩ : RawStream).name ∧
      s0.time_series
        = (⟨"B", "Markers", 1, 0, [[7]], [1/2]⟩ : RawStream).time_series ∧
      (⟨"B", "Markers", 1, 0, [[7]], [1/2]⟩ : RawStream).time_stamps
        = s0.time_stamps.map (fun t => t - (xdfT0 [c5fileA, c5fileB]).getD 0) :=
  ⟨by with_unfolding_all decide,
   rezero_subtracts_global_t0 [c5fileA, c5fileB] c5cfg c5st rfl
     (by with_unfolding_all decide)
     ⟨"B", "Markers", 1, 0, [[7]], [1/2]⟩ (by with_unfolding_all decide)⟩

/-! ## The force-single-sample split -/

theorem forceSplit_eq_zip (tmpl : AxisArray) (data : List (List ℚ))
    (tvec : List ℚ) (hlen : data.length = tvec.length) :
    forceSplit tmpl data tvec = (tvec.zip data).map (fun td =>
      { tmpl with
        data := [td.2]
        timeAxis := { tmpl.timeAxis with offset := td.1 } }) := by
  refine List.ext_getElem ?_ ?_
  · simp [forceSplit, List.enum_length, List.length_zip, hlen]
  · intro i h1 h2
    have hi : i < tvec.length := by
      simpa [forceSplit, List.enum_length] using h1
    have hid : i < data.length := by rw [hlen]; exact hi
    simp only [forceSplit, List.getElem_map, List.getElem_enum,
      List.getElem_zip]
    rw [List.drop_eq_getElem_cons hid]
    rfl

/-- Looking a key up in the output of a key-preserving `filterMap` over an
assoc list with distinct keys yields exactly the image of that key's entry. -/
theorem find?_filterMap_keyed {α β : Type}
    (g : String × α → Option (String × β))
    (hkey : ∀ kt p, g kt = some p → p.1 = kt.1) :
    ∀ (l : List (String × α)) (nm : String) (a : α),
      (l.map Prod.fst).Nodup → (nm, a) ∈ l →
      (l.filterMap g).find? (fun p => p.1 = nm) = g (nm, a) := by
  intro l
  induction l with
  | nil => intro nm a _ hmem; simp at hmem
  | cons kt0 rest ih =>
    intro nm a hnd hmem
    have hnd2 : (rest.map Prod.fst).Nodup := (List.nodup_cons.mp hnd).2
    have hkn : kt0.1 ∉ rest.map Prod.fst := (List.nodup_cons.mp hnd).1
    rcases List.mem_cons.mp hmem with heq | hmem2
    · rw [← heq] at hkn ⊢
      cases hg : g (nm, a) with
      | some p =>
        have hp1 : p.1 = nm := hkey _ _ hg
        rw [List.filterMap_cons, hg]
        rw [List.find?_cons_of_pos _ (by simp [hp1])]
      | none =>
        rw [List.filterMap_cons, hg]
        refine List.find?_eq_none.mpr ?_
        intro x hx
        obtain ⟨kt1, hkt1, hgx⟩ := List.mem_filterMap.mp hx
        have hx1 : x.1 = kt1.1 := hkey _ _ hgx
        simp only [decide_eq_true_eq]
        intro hxnm
        refine hkn ?_
        show (nm, a).1 ∈ rest.map Prod.fst
        have : kt1.1 ∈ rest.map Prod.fst := List.mem_map_of_mem Prod.fst hkt1
        rw [← hx1, hxnm] at this
        exact this
    · have hne : ¬(kt0.1 = nm) := by
        intro hcon
        refine hkn ?_
        have : (nm, a).1 ∈ rest.map Prod.fst := List.mem_map_of_mem Prod.fst hmem2
        rw [hcon]
        exact this
      rw [List.filterMap_cons]
      cases hg : g kt0 with
      | none => exact ih nm a hnd2 hmem2
      | some p0 =>
        have hp01 : p0.1 = kt0.1 := hkey _ _ hg
        rw [List.find?_cons_of_neg _ (by simp [hp01, hne])]
        exact ih nm a hnd2 hmem2

/-- The containers the multi-stream result carries for one stream name
(the empty list when the name is absent). -/
def containersFor (out : List (String × List AxisArray)) (nm : String) :
    List AxisArray :=
  match out.find? (fun p => p.1 = nm) with
  | some p => p.2
  | none => []

theorem multiStep_key {force : List String} {last_time : ℚ}
    {chunk : ChunkDict} {kt : String × AxisArray}
    {p : String × List AxisArray}
    (h : multiStep force last_time chunk kt = some p) : p.1 = kt.1 := by
  unfold multiStep at h
  cases hf : chunk.find? (fun q => q.1 = kt.1) with
  | none =>
    rw [hf] at h
    exact Option.noConfusion h
  | some q =>
    rw [hf] at h
    have h2 : (if 0 < q.2.2.length then
        (if force.contains kt.1 then
          some (kt.1, forceSplit kt.2 q.2.1 q.2.2)
        else some (kt.1, [singleContainer kt.2 last_time q.2.1 q.2.2]))
      else none) = some p := h
    by_cases hl : 0 < q.2.2.length
    · rw [if_pos hl] at h2
      by_cases hfs : force.contains kt.1
      · rw [if_pos hfs] at h2
        cases h2
        rfl
      · rw [if_neg hfs] at h2
        cases h2
        rfl
    · rw [if_neg hl] at h2
      exact Option.noConfusion h2

/-- **C8**: for a stream name configured in `force_single_sample`, a chunk
whose slice carries the parallel `(data, tvec)` arrays yields exactly
`tvec.length` containers in the multi-stream result, each holding exactly
the one corresponding data row, each stamped with that sample's own
timestamp, in the original timestamp order (stated as an equality with the
map over the zipped slice; an empty slice yields no containers). -/
theorem force_single_sample_split (ms : MultiState) (b2 : IterState)
    (chunk : ChunkDict) (hb : nextBase ms.base = .ok (b2, chunk))
    (nm : String) (hf : ms.force_single_sample.contains nm = true)
    (tmpl : AxisArray) (hnd : (ms.templates.map Prod.fst).Nodup)
    (ht : (nm, tmpl) ∈ ms.templates)
    (data : List (List ℚ)) (tvec : List ℚ)
    (hc : chunk.find? (fun p => p.1 = nm) = some (nm, (data, tvec)))
    (hlen : data.length = tvec.length) :
    ∃ ms2 mout, nextMulti ms = .ok (ms2, mout) ∧
      containersFor mout nm = (tvec.zip data).map (fun td =>
        { tmpl with
          data := [td.2]
          timeAxis := { tmpl.timeAxis with offset := td.1 } }) := by
  refine ⟨{ ms with base := b2 }, ms.templates.filterMap
    (multiStep ms.force_single_sample b2.last_time chunk), ?_, ?_⟩
  · unfold nextMulti
    rw [hb]
  · unfold containersFor
    rw [find?_filterMap_keyed (multiStep ms.force_single_sample b2.last_time chunk)
      (fun kt p h => multiStep_key h) ms.templates nm tmpl hnd ht]
    cases tvec with
    | nil =>
      have hstep : multiStep ms.force_single_sample b2.last_time chunk (nm, tmpl)
          = none := by
        unfold multiStep
        rw [hc]
        rfl
      rw [hstep]
      rfl
    | cons t ts =>
      have hstep : multiStep ms.force_single_sample b2.last_time chunk (nm, tmpl)
          = some (nm, forceSplit tmpl data (t :: ts)) := by
        unfold multiStep
        rw [hc]
        show (if 0 < (t :: ts).length then
            (if ms.force_single_sample.contains nm then
              some (nm, forceSplit tmpl data (t :: ts))
            else some (nm, [singleContainer tmpl b2.last_time data (t :: ts)]))
          else none) = _
        rw [if_pos (by simp), if_pos hf]
      rw [hstep]
      exact forceSplit_eq_zip tmpl data (t :: ts) hlen

def c8base : IterState :=
  ⟨[⟨"M", "Markers", 1, 0, [[5], [6]], [0, 1/2]⟩], [], 1, 1, 0, 0⟩

def c8tmpl : AxisArray := ⟨[], ["time", "ch"], ⟨1, 0⟩, ⟨["1"]⟩, "M"⟩

def c8ms : MultiState := ⟨c8base, ["M"], [("M", c8tmpl)]⟩

def c8chunk : ChunkDict := [("M", ([[5], [6]], [0, 1/2]))]

def c8b2 : IterState :=
  ⟨[⟨"M", "Markers", 1, 0, [[5], [6]], [0, 1/2]⟩], [], 1, 1, 1, 1/2⟩

theorem force_single_sample_split_witness :
    nextBase c8ms.base = .ok (c8b2, c8chunk) ∧
    ∃ ms2 mout, nextMulti c8ms = .ok (ms2, mout) ∧
      containersFor mout "M" = (([0, 1/2] : List ℚ).zip [[5], [6]]).map (fun td =>
        { c8tmpl with
          data := [td.2]
          timeAxis := { c8tmpl.timeAxis with offset := td.1 } }) :=
  ⟨by with_unfolding_all decide,
   force_single_sample_split c8ms c8b2 c8chunk (by with_unfolding_all decide)
     "M" (by with_unfolding_all decide) c8tmpl (by with_unfolding_all decide)
     (by with_unfolding_all decide) [[5], [6]] [0, 1/2]
     (by with_unfolding_all decide) (by with_unfolding_all decide)⟩

/-! ## Exhaustiveness of the chunk windows (claim C4) -/

/-- Drive the base cursor `n` times from `st`, collecting the chunk dicts
(the sequence of `__next__` results of one full pass). -/
def runChunks : Nat → IterState → List ChunkDict
  | 0, _ => []
  | Nat.succ n, st =>
    match nextBase st with
    | .error _ => []
    | .ok (st2, out) => out :: runChunks n st2

/-- The timestamped samples one chunk dict returns for a stream: the
slice's timestamps zipped with its data rows. -/
def samplesOf (d : ChunkDict) (nm : String) : List (ℚ × List ℚ) :=
  match d.find? (fun p => p.1 = nm) with
  | some p => p.2.2.zip p.2.1
  | none => []

/-- Every sample the iterator returns for a stream over a full pass
(chunk indices `0 .. n_chunks-1`), in emission order. -/
def chunkUnionSamples (st : IterState) (nm : String) : List (ℚ × List ℚ) :=
  ((runChunks st.n_chunks.toNat st).map (fun d => samplesOf d nm)).flatten

/-- The chunk dict the cursor emits at index `k`. -/
def outAt (st : IterState) (k : Nat) : ChunkDict :=
  st.streams.map (fun s => (s.name,
    sliceOne ((k : ℚ) * st.chunk_dur) (((k : ℚ) + 1) * st.chunk_dur) s))

theorem runChunks_spec :
    ∀ (n : Nat) (st : IterState),
      (st.chunk_ix : Int) + n ≤ st.n_chunks →
      runChunks n st = (List.range n).map (fun j => outAt st (st.chunk_ix + j)) := by
  intro n
  induction n with
  | zero => intro st _; rfl
  | succ n ih =>
    intro st h
    have hlt : (st.chunk_ix : Int) < st.n_chunks := by
      have h1 : (st.chunk_ix : Int) + 1 ≤ (st.chunk_ix : Int) + ((n : Int) + 1) := by
        omega
      push_cast at h
      omega
    obtain ⟨⟨st2, out⟩, hnb⟩ := (nextBase_ok_iff st).mpr hlt
    obtain ⟨hout, hstr, hcd, hnc, hix, _⟩ := nextBase_ok_elim hnb
    unfold runChunks
    rw [hnb]
    show out :: runChunks n st2 = _
    have hrec := ih st2 (by
      rw [hix, hnc]
      push_cast at h ⊢
      omega)
    have houtAt : ∀ k, outAt st2 k = outAt st k := by
      intro k
      unfold outAt
      rw [hstr, hcd]
    rw [hout, hrec, List.range_succ_eq_map, List.map_cons, List.map_map]
    congr 1
    refine List.map_congr_left ?_
    intro j _
    rw [houtAt, hix]
    show outAt st (st.chunk_ix + 1 + j) = outAt st (st.chunk_ix + (j + 1))
    rw [Nat.add_assoc, Nat.add_comm 1 j]

theorem count_filter_ite {α : Type} [DecidableEq α] (p : α → Bool)
    (l : List α) (a : α) :
    (l.filter p).count a = if p a = true then l.count a else 0 := by
  by_cases hp : p a = true
  · rw [if_pos hp]
    exact List.count_filter hp
  · rw [if_neg hp]
    refine List.count_eq_zero_of_not_mem ?_
    intro hmem
    exact hp (List.of_mem_filter hmem)

theorem count_eq_zero_of_not_mem2 {α : Type} [DecidableEq α] {a : α}
    {l : List α} (h : a ∉ l) : l.count a = 0 :=
  List.count_eq_zero_of_not_mem h

theorem window_partition_sum (d : ℚ) (hd : 0 < d) (c : Nat) :
    ∀ (n : Nat) (t : ℚ), 0 ≤ t → t < (n : ℚ) * d →
      ((List.range n).map (fun (j : Nat) =>
        if (decide ((j : ℚ) * d ≤ t) && decide (t < ((j : ℚ) + 1) * d)) = true
        then c else 0)).sum = c := by
  intro n
  induction n with
  | zero =>
    intro t h0 hlt
    exfalso
    rw [Nat.cast_zero, zero_mul] at hlt
    linarith
  | succ n ih =>
    intro t h0 hlt
    rw [List.range_succ, List.map_append, List.sum_append]
    by_cases hc : t < (n : ℚ) * d
    · rw [ih t h0 hc]
      have hnle : ¬((n : ℚ) * d ≤ t) := not_le.mpr hc
      simp [hnle]
    · have hge : (n : ℚ) * d ≤ t := not_lt.mp hc
      have hlast : t < ((n : ℚ) + 1) * d := by
        push_cast at hlt
        exact hlt
      have hzero : ((List.range n).map (fun (j : Nat) =>
          if (decide ((j : ℚ) * d ≤ t) && decide (t < ((j : ℚ) + 1) * d)) = true
          then c else 0)).sum = 0 := by
        refine List.sum_eq_zero ?_
        intro x hx
        obtain ⟨j, hj, hxeq⟩ := List.mem_map.mp hx
        have hjn : j < n := List.mem_range.mp hj
        have hnlt : ¬(t < ((j : ℚ) + 1) * d) := by
          refine not_lt.mpr ?_
          have h1 : ((j : ℚ) + 1) ≤ (n : ℚ) := by exact_mod_cast hjn
          have h2 := mul_le_mul_of_nonneg_right h1 (le_of_lt hd)
          linarith
        rw [← hxeq]
        simp [hnlt]
      rw [hzero]
      simp [hge, hlast]

theorem xdfT0_le_head {file : List RawStream} {s0 : RawStream}
    (hs0 : s0 ∈ file) {h0 : ℚ} (hh : s0.time_stamps.head? = some h0) :
    ∃ v, xdfT0 file = some v ∧ v ≤ h0 := by
  unfold xdfT0
  have hmem : h0 ∈ file.filterMap (fun s => s.time_stamps.head?) :=
    List.mem_filterMap.mpr ⟨s0, hs0, hh⟩
  cases hl : file.filterMap (fun s => s.time_stamps.head?) with
  | nil => rw [hl] at hmem; simp at hmem
  | cons c cs =>
    rw [hl] at hmem
    exact ⟨cs.foldl min c, rfl, min?_le (by simp [List.min?]) hmem⟩

def c4file : List RawStream := [⟨"A", "EEG", 1, 100, [[1], [2]], [2, 5/2]⟩]

def c4cfg : Config := ⟨none, 1, none, none, false⟩

def c4st : IterState :=
  ⟨[⟨"A", "EEG", 1, 100, [[1], [2]], [2, 5/2]⟩],
   [("A", ⟨"A", "EEG", 1, 100⟩)], 1, 1, 0, 0⟩

/-- **C4 (counterexample)**: the claim includes `rezero=False`, but then
the chunk windows still start at `0` while the timestamps remain absolute:
for one stream with timestamps `[2, 5/2]`, `chunk_dur=1`, `rezero=False`,
construction succeeds with `total_chunks = ceil((5/2-2)/1) = 1`, the single
window `[0,1)` selects nothing, and the union over all chunks is empty
while the trimmed sample set has two samples — so the union is not the
full sample set. -/
theorem chunk_union_counterexample :
    scanFile c4file c4cfg = .ok c4st ∧
    (⟨"A", "EEG", 1, 100, [[1], [2]], [2, 5/2]⟩ : RawStream) ∈ c4st.streams ∧
    chunkUnionSamples c4st "A" = [] ∧
    ¬ (chunkUnionSamples c4st "A").Perm
        ((⟨"A", "EEG", 1, 100, [[1], [2]], [2, 5/2]⟩ : RawStream).time_stamps.zip
          (⟨"A", "EEG", 1, 100, [[1], [2]], [2, 5/2]⟩ : RawStream).time_series) := by
  with_unfolding_all decide

/-- **C4 (amended)**: the partition property holds once `rezero` is
enabled, each file stream's timestamps are non-decreasing, and the
re-zeroed duration is strictly below `total_chunks * chunk_dur` (i.e. not
an exact multiple of `chunk_dur`, which would strand the final sample):
then over chunk indices `0 .. total_chunks-1` the samples returned for a
retained stream form a permutation of that stream's full (trimmed) sample
set — every sample in exactly one chunk, no duplicates, no gaps. -/
theorem chunk_union_partition_rezero (file : List RawStream) (cfg : Config)
    (st : IterState) (hr : cfg.rezero = true) (hd : 0 < cfg.chunk_dur)
    (hsorted : ∀ s0 ∈ file, s0.time_stamps.Sorted (· ≤ ·))
    (h : scanFile file cfg = .ok st)
    (hmul : xdfDurOf (rezeroStreams ((xdfT0 file).getD 0) file)
      < (st.n_chunks : ℚ) * cfg.chunk_dur)
    (hnodup : (st.streams.map RawStream.name).Nodup)
    (hlen : ∀ s ∈ st.streams, s.time_series.length = s.time_stamps.length) :
    ∀ s ∈ st.streams,
      (chunkUnionSamples st s.name).Perm (s.time_stamps.zip s.time_series) := by
  obtain ⟨hn, hcd, hix, hmem⟩ := scanFile_rezero_inv hr h
  intro s hs
  have hbound : ∀ t ∈ s.time_stamps,
      0 ≤ t ∧ t < (st.n_chunks : ℚ) * st.chunk_dur := by
    intro t ht
    obtain ⟨s0, hs0, hseq⟩ := List.mem_map.mp (hmem s hs)
    rw [← hseq] at ht
    obtain ⟨u, hu, hueq⟩ := List.mem_map.mp ht
    cases hh : s0.time_stamps.head? with
    | none =>
      exfalso
      rw [List.head?_eq_none_iff] at hh
      rw [hh] at hu
      simp at hu
    | some h0 =>
      obtain ⟨v, hv1, hv2⟩ := xdfT0_le_head hs0 hh
      have hgetD : (xdfT0 file).getD 0 = v := by rw [hv1]; rfl
      constructor
      · have h0u : h0 ≤ u := sorted_head?_le (hsorted s0 hs0) hh u hu
        rw [← hueq, hgetD]
        linarith
      · cases hgl : s0.time_stamps.getLast? with
        | none =>
          exfalso
          rw [List.getLast?_eq_none_iff] at hgl
          rw [hgl] at hu
          simp at hu
        | some w =>
          have huw : u ≤ w := sorted_le_getLast? s0.time_stamps
            (hsorted s0 hs0) hgl u hu
          have hglm : s.time_stamps.getLast? = some (w - (xdfT0 file).getD 0) := by
            rw [← hseq]
            show (s0.time_stamps.map (fun x => x - (xdfT0 file).getD 0)).getLast? = _
            rw [List.getLast?_map, hgl]
            rfl
          have hle := foldl_durStep_mem_le
            (rezeroStreams ((xdfT0 file).getD 0) file) 0 s (hmem s hs) _ hglm
          rw [← xdfDurOf_eq_foldl] at hle
          rw [← hueq, hgetD, hcd]
          rw [hgetD] at hle hmul
          have h1 : u - v ≤ w - v := by linarith
          linarith
  have hdur2 : 0 < st.chunk_dur := by rw [hcd]; exact hd
  have hpos : 0 ≤ st.n_chunks := by
    rw [hn]
    exact Int.ceil_nonneg (div_nonneg (xdfDurOf_nonneg _) (le_of_lt hd))
  have hntoNat : (st.n_chunks.toNat : Int) = st.n_chunks := Int.toNat_of_nonneg hpos
  have hcast : ((st.n_chunks.toNat : ℚ)) = ((st.n_chunks : ℚ)) := by
    exact_mod_cast hntoNat
  have hrun : runChunks st.n_chunks.toNat st
      = (List.range st.n_chunks.toNat).map (fun j => outAt st (st.chunk_ix + j)) := by
    refine runChunks_spec _ st ?_
    rw [hix, hntoNat]
    simp
  have hsamples : ∀ j : Nat, samplesOf (outAt st j) s.name
      = (s.time_stamps.zip s.time_series).filter (fun pr =>
          decide ((j : ℚ) * st.chunk_dur ≤ pr.1) &&
          decide (pr.1 < ((j : ℚ) + 1) * st.chunk_dur)) := by
    intro j
    unfold samplesOf outAt
    rw [find?_name_map (fun x => sliceOne ((j : ℚ) * st.chunk_dur)
      (((j : ℚ) + 1) * st.chunk_dur) x) st.streams hnodup s hs]
    show (sliceOne ((j : ℚ) * st.chunk_dur) (((j : ℚ) + 1) * st.chunk_dur) s).2.zip
        (sliceOne ((j : ℚ) * st.chunk_dur) (((j : ℚ) + 1) * st.chunk_dur) s).1 = _
    exact sliceOne_pairs _ _ s (hlen s hs)
  unfold chunkUnionSamples
  rw [hrun, List.map_map]
  refine List.perm_iff_count.mpr ?_
  intro pr
  rw [@List.count_flatten (ℚ × List ℚ) instBEqOfDecidableEq pr _, List.map_map]
  have hmapeq : (List.range st.n_chunks.toNat).map
      (@List.count (ℚ × List ℚ) instBEqOfDecidableEq pr ∘
        (fun d => samplesOf d s.name) ∘ fun j => outAt st (st.chunk_ix + j))
      = (List.range st.n_chunks.toNat).map (fun (j : Nat) =>
        if (decide ((j : ℚ) * st.chunk_dur ≤ pr.1) &&
            decide (pr.1 < ((j : ℚ) + 1) * st.chunk_dur)) = true
        then @List.count (ℚ × List ℚ) instBEqOfDecidableEq pr
          (s.time_stamps.zip s.time_series) else 0) := by
    refine List.map_congr_left ?_
    intro j _
    show @List.count (ℚ × List ℚ) instBEqOfDecidableEq pr
      (samplesOf (outAt st (st.chunk_ix + j)) s.name) = _
    rw [hix, Nat.zero_add, hsamples j]
    exact count_filter_ite _ _ pr
  rw [hmapeq]
  by_cases hpr : pr ∈ s.time_stamps.zip s.time_series
  · have hprt : pr.1 ∈ s.time_stamps := (List.of_mem_zip hpr).1
    obtain ⟨hge, hlt⟩ := hbound pr.1 hprt
    have hlt2 : pr.1 < (st.n_chunks.toNat : ℚ) * st.chunk_dur := by
      rw [hcast]
      exact hlt
    exact window_partition_sum st.chunk_dur hdur2 _ st.n_chunks.toNat pr.1 hge hlt2
  · have hc0 : @List.count (ℚ × List ℚ) instBEqOfDecidableEq pr
        (s.time_stamps.zip s.time_series) = 0 :=
      count_eq_zero_of_not_mem2 hpr
    rw [hc0]
    refine List.sum_eq_zero ?_
    intro x hx
    obtain ⟨j, _, hxeq⟩ := List.mem_map.mp hx
    rw [← hxeq]
    simp

def c4wfile : List RawStream := [⟨"A", "EEG", 1, 100, [[1], [2], [3]], [0, 1/2, 3/2]⟩]

def c4wcfg : Config := ⟨none, 1, none, none, true⟩

def c4wst : IterState :=
  ⟨[⟨"A", "EEG", 1, 100, [[1], [2], [3]], [0, 1/2, 3/2]⟩],
   [("A", ⟨"A", "EEG", 1, 100⟩)], 2, 1, 0, 0⟩

def c4wstream : RawStream := ⟨"A", "EEG", 1, 100, [[1], [2], [3]], [0, 1/2, 3/2]⟩

theorem chunk_union_partition_rezero_witness :
    c4wcfg.rezero = true ∧ 0 < c4wcfg.chunk_dur ∧
    scanFile c4wfile c4wcfg = .ok c4wst ∧
    xdfDurOf (rezeroStreams ((xdfT0 c4wfile).getD 0) c4wfile)
      < (c4wst.n_chunks : ℚ) * c4wcfg.chunk_dur ∧
    (chunkUnionSamples c4wst c4wstream.name).Perm
      (c4wstream.time_stamps.zip c4wstream.time_series) :=
  ⟨rfl, by with_unfolding_all decide, by with_unfolding_all decide,
   by with_unfolding_all decide,
   chunk_union_partition_rezero c4wfile c4wcfg c4wst rfl
     (by with_unfolding_all decide) (by with_unfolding_all decide)
     (by with_unfolding_all decide) (by with_unfolding_all decide)
     (by with_unfolding_all decide) (by with_unfolding_all decide)
     c4wstream (by with_unfolding_all decide)⟩
